import Mathlib

/-!
# Verification of the Enigma emulator cipher engine

Shallow embedding of the `enigma` package (`core.py`, `plugboard.py`,
`rotor.py`, `machine.py`).  Letters of the fixed 26-letter alphabet are
modelled as `Fin 26`; rotor positions are `Fin 26` (the code keeps them in
`[0,26)` via `% 26`); ring offsets are `ℤ` because `Rotor.setRingOffset`
stores any Python int without a range check; fallible code paths return
`Except EErr`.
-/

namespace Enigma

/-- Error kinds raised by the Python code: `TypeError`, `ValueError`,
`KeyError` from a dict lookup, the `ValueError('Invalid slot')` in
`Machine.rotateRotor`, and an `IndexError` from a list access. -/
inductive EErr where
  | typeError
  | valueError
  | keyError
  | invalidSlot
  | indexError
deriving DecidableEq, Repr

/-- Reduce an integer into `Fin 26`, as Python's `% 26` does
(`Int.emod` with positive modulus is always non-negative). -/
def intToFin (z : ℤ) : Fin 26 :=
  ⟨(z % 26).toNat, by omega⟩

/-- Catalog names from `ROTOR_OPTIONS` in `rotor.py`; the reflector
options `A`, `B`, `C` are merged into the same catalog by the module-level
loop, so they are legal rotor names too. -/
inductive RName where
  | dummy | beta | gamma | rI | rII | rIII | rIV | rV
  | refA | refB | refC
deriving DecidableEq, Repr, Fintype

/-- The wiring permutation strings of `ROTOR_OPTIONS` / `REFLECTOR_OPTIONS`,
with each letter replaced by its alphabet index. -/
def wiringOf : RName → List (Fin 26)
  | .dummy => [0, 1, 2, 3, 4, 5, 6, 7, 8, 9, 10, 11, 12, 13, 14, 15, 16, 17, 18, 19, 20, 21, 22, 23, 24, 25]
  | .beta => [11, 4, 24, 9, 21, 2, 13, 8, 23, 22, 15, 1, 16, 12, 3, 17, 19, 0, 10, 25, 6, 5, 20, 7, 14, 18]
  | .gamma => [5, 18, 14, 10, 0, 13, 20, 4, 17, 7, 12, 1, 19, 8, 24, 2, 22, 11, 16, 15, 25, 23, 21, 6, 9, 3]
  | .rI => [4, 10, 12, 5, 11, 6, 3, 16, 21, 25, 13, 19, 14, 22, 24, 7, 23, 20, 18, 15, 0, 8, 1, 17, 2, 9]
  | .rII => [0, 9, 3, 10, 18, 8, 17, 20, 23, 1, 11, 7, 22, 19, 12, 2, 16, 6, 25, 13, 15, 24, 5, 21, 14, 4]
  | .rIII => [1, 3, 5, 7, 9, 11, 2, 15, 17, 19, 23, 21, 25, 13, 24, 4, 8, 22, 6, 0, 10, 12, 20, 18, 16, 14]
  | .rIV => [4, 18, 14, 21, 15, 25, 9, 0, 24, 16, 20, 8, 17, 7, 23, 11, 13, 5, 19, 6, 10, 3, 2, 12, 22, 1]
  | .rV => [21, 25, 1, 17, 6, 8, 19, 24, 20, 15, 18, 3, 13, 7, 11, 23, 0, 22, 12, 9, 16, 14, 5, 4, 2, 10]
  | .refA => [4, 9, 12, 25, 0, 11, 24, 23, 21, 1, 22, 5, 2, 17, 16, 20, 14, 13, 19, 18, 15, 8, 10, 7, 6, 3]
  | .refB => [24, 17, 20, 7, 16, 18, 11, 3, 15, 23, 13, 6, 14, 10, 12, 8, 4, 1, 5, 25, 2, 22, 21, 9, 0, 19]
  | .refC => [5, 21, 15, 9, 8, 0, 14, 24, 4, 3, 17, 25, 23, 22, 6, 2, 19, 10, 20, 16, 18, 1, 13, 12, 7, 11]

/-- Notch letters from the catalog (`Q`, `E`, `V`, `J`, `Z` for rotors I–V;
`False`, i.e. absent, for the others). -/
def notchOf : RName → Option (Fin 26)
  | .rI => some 16
  | .rII => some 4
  | .rIII => some 21
  | .rIV => some 9
  | .rV => some 25
  | _ => none

/-- The static right-facing wiring dict built in `Rotor.__init__`:
`_dict['right'][ALPHABET[i]] = mapping_str[i]`. -/
def rightOf (n : RName) (c : Fin 26) : Fin 26 :=
  (wiringOf n).getD c.1 0

/-- The static left-facing wiring dict built in `Rotor.__init__`:
`_dict['left'][mapping_str[i]] = ALPHABET[i]`, i.e. the inverse assignment
of the right dict. -/
def leftOf (n : RName) (c : Fin 26) : Fin 26 :=
  (((List.finRange 26).find? (fun i => rightOf n i == c)).getD 0)

/-- A rotor: catalog name (fixing its immutable wiring pair and notch),
current position `_position`, and ring offset `_ring_offset` (a raw
Python int). -/
structure Rotor where
  name : RName
  pos : Fin 26
  ring : ℤ
deriving DecidableEq, Repr

/-- Default rotor used only as the `getD` fallback in statements. -/
def d0 : Rotor := ⟨.dummy, 0, 0⟩

/-- `Rotor._shift_in`: `idx' = (idx + position - ring_offset) % 26`. -/
def shiftIn (r : Rotor) (c : Fin 26) : Fin 26 :=
  intToFin ((c.1 : ℤ) + (r.pos.1 : ℤ) - r.ring)

/-- `Rotor._unshift_out`: `idx' = (idx - position + ring_offset) % 26`. -/
def unshiftOut (r : Rotor) (c : Fin 26) : Fin 26 :=
  intToFin ((c.1 : ℤ) - (r.pos.1 : ℤ) + r.ring)

/-- `Rotor.encode_right_to_left`: shift in, right wiring dict, unshift out. -/
def encodeRTL (r : Rotor) (c : Fin 26) : Fin 26 :=
  unshiftOut r (rightOf r.name (shiftIn r c))

/-- `Rotor.encode_left_to_right`: shift in, left (inverse) wiring dict,
unshift out. -/
def encodeLTR (r : Rotor) (c : Fin 26) : Fin 26 :=
  unshiftOut r (leftOf r.name (shiftIn r c))

/-- `Rotor.rotate` with default `update_dicts=False`:
`_position = (_position + 1) % 26`; the wiring dicts are untouched
(the rotation counter is diagnostic only and omitted). -/
def rotate (r : Rotor) : Rotor :=
  { r with pos := r.pos + 1 }

/-- `Rotor.isAtNotch`: the rotor has a notch and its current position letter
equals the notch letter. -/
def atNotch (r : Rotor) : Bool :=
  match notchOf r.name with
  | some n => r.pos == n
  | none => false

/-- `Rotor.rotateToPosition` on an already-converted integer target:
errors unless `target in range(26)`, then rotates one step at a time until
the position equals the target (so the final position is the target). -/
def toPos (v : ℤ) : Except EErr (Fin 26) :=
  if h : 0 ≤ v ∧ v < 26 then .ok ⟨v.toNat, by omega⟩ else .error .valueError

/- ### Basic facts about the wiring arithmetic -/

theorem intToFin_coe (z : ℤ) : ((intToFin z).1 : ℤ) = z % 26 := by
  simp only [intToFin]
  omega

theorem unshiftOut_shiftIn (r : Rotor) (c : Fin 26) :
    unshiftOut r (shiftIn r c) = c := by
  apply Fin.ext
  simp only [unshiftOut, shiftIn, intToFin]
  have hc := c.isLt
  omega

theorem shiftIn_unshiftOut (r : Rotor) (c : Fin 26) :
    shiftIn r (unshiftOut r c) = c := by
  apply Fin.ext
  simp only [unshiftOut, shiftIn, intToFin]
  have hc := c.isLt
  omega

/-- Every catalog wiring is a permutation: the left dict inverts the right
dict and vice versa. -/
theorem wiring_wf : ∀ (n : RName) (c : Fin 26),
    leftOf n (rightOf n c) = c ∧ rightOf n (leftOf n c) = c := by decide

theorem encodeLTR_encodeRTL (r : Rotor) (c : Fin 26) :
    encodeLTR r (encodeRTL r c) = c := by
  simp only [encodeLTR, encodeRTL, shiftIn_unshiftOut,
    (wiring_wf r.name (shiftIn r c)).1, unshiftOut_shiftIn]

theorem encodeRTL_encodeLTR (r : Rotor) (c : Fin 26) :
    encodeRTL r (encodeLTR r c) = c := by
  simp only [encodeRTL, encodeLTR, shiftIn_unshiftOut,
    (wiring_wf r.name (shiftIn r c)).2, unshiftOut_shiftIn]

/- ### Plugboard and reflector lead perturbation -/

/-- Merging one `PlugLead(x, y)` into an encoding dict, as both
`Plugboard.add` and `Reflector.add` do: the lead's reassigned subset is
empty when `x = y` (both writes in `PlugLead.__init__` are then the
identity), and otherwise holds `x ↦ y` and `y ↦ x`, which overwrite the
dict entries at keys `x` and `y`. -/
def addLeadPair (d : Fin 26 → Fin 26) (x y : Fin 26) : Fin 26 → Fin 26 :=
  if x = y then d else fun z => if z = y then x else if z = x then y else d z

/-- `Plugboard.addLeads` over already-validated two-letter pairs: fold
`addLeadPair` over the pair list starting from the identity dict built by
`EncodingDict.__init__`. -/
def plugboardOf (pairs : List (Fin 26 × Fin 26)) : Fin 26 → Fin 26 :=
  pairs.foldl (fun d p => addLeadPair d p.1 p.2) id

/-- `Reflector.swapLeads` on a two-letter pair `(a, b)`: snapshot the
current outputs `d a` and `d b`, then add the leads `(a, d b)` and
`(b, d a)` in that order, mutating only the right-facing dict. -/
def swapLeads (d : Fin 26 → Fin 26) (a b : Fin 26) : Fin 26 → Fin 26 :=
  addLeadPair (addLeadPair d a (d b)) b (d a)

/-- `Reflector.makeSwaps`: apply `swapLeads` for each pair in order. -/
def makeSwaps (d : Fin 26 → Fin 26) (pairs : List (Fin 26 × Fin 26)) :
    Fin 26 → Fin 26 :=
  pairs.foldl (fun d p => swapLeads d p.1 p.2) d

/-- Disjointness of a plugboard pair list: within each pair the two letters
differ and no letter occurs in two different pairs (the documented caller
precondition). -/
def disjointPairs : List (Fin 26 × Fin 26) → Bool
  | [] => true
  | p :: rest =>
    p.1 != p.2 &&
    rest.all (fun q => p.1 != q.1 && p.1 != q.2 && p.2 != q.1 && p.2 != q.2) &&
    disjointPairs rest

theorem addLeadPair_self (d : Fin 26 → Fin 26) (x : Fin 26) :
    addLeadPair d x x = d :=
  if_pos rfl

theorem addLeadPair_spec (d : Fin 26 → Fin 26) (a b : Fin 26)
    (hinv : ∀ x, d (d x) = x) (ha : d a = a) (hb : d b = b) (hab : a ≠ b) :
    (∀ x, addLeadPair d a b (addLeadPair d a b x) = x) ∧
    (∀ x, x ≠ a → x ≠ b → addLeadPair d a b x = d x) := by
  have hinj : ∀ x y, d x = d y → x = y := by
    intro x y h
    have := congrArg d h
    rwa [hinv, hinv] at this
  constructor
  · intro x
    simp only [addLeadPair, if_neg hab]
    by_cases hxb : x = b
    · simp [hxb, hab, Ne.symm hab]
    · by_cases hxa : x = a
      · simp [hxa, hab, Ne.symm hab]
      · have h1 : d x ≠ b := fun h => hxb (hinj x b (h.trans hb.symm))
        have h2 : d x ≠ a := fun h => hxa (hinj x a (h.trans ha.symm))
        simp [hxb, hxa, h1, h2, hinv]
  · intro x hxa hxb
    simp [addLeadPair, if_neg hab, hxa, hxb]

theorem plugboard_foldl_invol (pairs : List (Fin 26 × Fin 26)) :
    ∀ (d : Fin 26 → Fin 26), (∀ x, d (d x) = x) →
    (∀ p ∈ pairs, d p.1 = p.1 ∧ d p.2 = p.2) →
    disjointPairs pairs = true →
    ∀ x, (pairs.foldl (fun d p => addLeadPair d p.1 p.2) d)
        ((pairs.foldl (fun d p => addLeadPair d p.1 p.2) d) x) = x := by
  induction pairs with
  | nil => intro d hd _ _ x; exact hd x
  | cons p rest ih =>
    intro d hd hfix hdisj x
    simp only [disjointPairs, Bool.and_eq_true, bne_iff_ne, List.all_eq_true] at hdisj
    obtain ⟨⟨hab, hrest⟩, hdisj'⟩ := hdisj
    have hp := hfix p (List.mem_cons_self p rest)
    obtain ⟨hspec1, hspec2⟩ :=
      addLeadPair_spec d p.1 p.2 hd hp.1 hp.2 hab
    simp only [List.foldl_cons]
    refine ih (addLeadPair d p.1 p.2) hspec1 ?_ hdisj' x
    intro q hq
    have hq' := hrest q hq
    simp only [Bool.and_eq_true, bne_iff_ne] at hq'
    have hq1 : p.1 ≠ q.1 := by tauto
    have hq2 : p.1 ≠ q.2 := by tauto
    have hq3 : p.2 ≠ q.1 := by tauto
    have hq4 : p.2 ≠ q.2 := by tauto
    refine ⟨?_, ?_⟩
    · rw [hspec2 q.1 (Ne.symm hq1) (Ne.symm hq3)]
      exact (hfix q (List.mem_cons_of_mem p hq)).1
    · rw [hspec2 q.2 (Ne.symm hq2) (Ne.symm hq4)]
      exact (hfix q (List.mem_cons_of_mem p hq)).2

/-- The plugboard built from disjoint two-letter pairs is an involution. -/
theorem plugboardOf_invol (pairs : List (Fin 26 × Fin 26))
    (hdisj : disjointPairs pairs = true) :
    ∀ x, plugboardOf pairs (plugboardOf pairs x) = x := by
  refine plugboard_foldl_invol pairs id (fun _ => rfl) ?_ hdisj
  intro p _
  exact ⟨rfl, rfl⟩

/-- The transposition of `a` and `b` used to describe `swapLeads`. -/
def mySwap (a b x : Fin 26) : Fin 26 :=
  if x = a then b else if x = b then a else x

theorem mySwap_invol : ∀ a b x : Fin 26, mySwap a b (mySwap a b x) = x := by
  intro a b x
  simp only [mySwap]
  by_cases hxa : x = a
  · by_cases hab : b = a <;> simp [hxa, hab]
  · by_cases hxb : x = b <;> simp [hxa, hxb]

/-- On an involutive derangement, `swapLeads d a b` is exactly conjugation
of `d` by the transposition of `a` and `b`. -/
theorem swapLeads_eq_conj (d : Fin 26 → Fin 26)
    (hI : ∀ x, d (d x) = x) (hD : ∀ x, d x ≠ x) (a b x : Fin 26) :
    swapLeads d a b x = mySwap a b (d (mySwap a b x)) := by
  have hinj : ∀ x y, d x = d y → x = y := by
    intro x y h
    have := congrArg d h
    rwa [hI, hI] at this
  have hdea : d (d a) = a := hI a
  have hdeb : d (d b) = b := hI b
  have hna : d a ≠ a := hD a
  have hnb : d b ≠ b := hD b
  by_cases hab : a = b
  · subst hab
    have hR : mySwap a a (d (mySwap a a x)) = d x := by
      simp only [mySwap]
      by_cases hxa : x = a
      · simp [hxa, hna]
      · simp only [if_neg hxa]
        by_cases hdx : d x = a
        · simp [hdx]
        · simp [hdx]
    rw [hR]
    simp only [swapLeads, addLeadPair, if_neg (Ne.symm hna)]
    by_cases hxe : x = d a
    · simp [hxe, hdea]
    · by_cases hxa : x = a
      · simp [hxe, hxa]
      · simp [hxe, hxa]
  · by_cases heab : d a = b
    · have heba : d b = a := by rw [← heab]; exact hI a
      have hL : swapLeads d a b x = d x := by
        rw [swapLeads, heba, heab, addLeadPair_self, addLeadPair_self]
      have hR : mySwap a b (d (mySwap a b x)) = d x := by
        simp only [mySwap]
        by_cases hxa : x = a
        · simp [hxa, heab, heba, hab]
        · by_cases hxb : x = b
          · simp [hxa, hxb, heba, heab, Ne.symm hab, hab]
          · have h1 : d x ≠ a := fun h => hxb (hinj x b (h.trans heba.symm))
            have h2 : d x ≠ b := fun h => hxa (hinj x a (h.trans heab.symm))
            simp [hxa, hxb, h1, h2]
      rw [hL, hR]
    · have heba : d b ≠ a := fun h => heab (by rw [← h]; exact hI b)
      have hadb : a ≠ d b := Ne.symm heba
      have hbda : b ≠ d a := Ne.symm heab
      have hne1 : d a ≠ d b := fun h => hab (hinj a b h)
      simp only [swapLeads, addLeadPair, if_neg hadb, if_neg hbda, mySwap]
      by_cases hxa : x = a
      · simp [hxa, hab, Ne.symm hab, hna, Ne.symm hna, hnb, Ne.symm hnb,
          hadb, Ne.symm hadb, hbda, heba, heab, hdea, hdeb]
      · by_cases hxb : x = b
        · simp [hxb, hab, Ne.symm hab, hna, Ne.symm hna, hnb, Ne.symm hnb,
            hadb, hbda, Ne.symm hbda, heba, heab, hdea, hdeb]
        · by_cases hxda : x = d a
          · simp [hxda, hab, Ne.symm hab, hna, Ne.symm hna, hnb, Ne.symm hnb,
              hadb, hbda, Ne.symm hbda, heba, heab, hdea, hdeb,
              hne1, Ne.symm hne1]
          · by_cases hxdb : x = d b
            · simp [hxdb, hab, Ne.symm hab, hna, Ne.symm hna, hnb,
                Ne.symm hnb, hadb, Ne.symm hadb, hbda, heba, heab,
                hdea, hdeb, hne1, Ne.symm hne1]
            · have h1 : d x ≠ a := fun h => hxda (by rw [← h]; exact (hI x).symm)
              have h2 : d x ≠ b := fun h => hxdb (by rw [← h]; exact (hI x).symm)
              simp [hxa, hxb, hxda, hxdb, h1, h2]

/-- `swapLeads` on a two-letter pair preserves the involution and
derangement invariants of the reflector's right-facing dict. -/
theorem swapLeads_preserves (d : Fin 26 → Fin 26)
    (hI : ∀ x, d (d x) = x) (hD : ∀ x, d x ≠ x) (a b : Fin 26) :
    (∀ x, swapLeads d a b (swapLeads d a b x) = x) ∧
    (∀ x, swapLeads d a b x ≠ x) := by
  constructor
  · intro x
    rw [swapLeads_eq_conj d hI hD, swapLeads_eq_conj d hI hD,
      mySwap_invol, hI, mySwap_invol]
  · intro x h
    rw [swapLeads_eq_conj d hI hD] at h
    have := congrArg (mySwap a b) h
    rw [mySwap_invol] at this
    exact hD (mySwap a b x) this

/-- `makeSwaps` preserves the involution and derangement invariants. -/
theorem makeSwaps_preserves (pairs : List (Fin 26 × Fin 26)) :
    ∀ (d : Fin 26 → Fin 26), (∀ x, d (d x) = x) → (∀ x, d x ≠ x) →
    (∀ x, makeSwaps d pairs (makeSwaps d pairs x) = x) ∧
    (∀ x, makeSwaps d pairs x ≠ x) := by
  induction pairs with
  | nil => intro d hI hD; exact ⟨hI, hD⟩
  | cons p rest ih =>
    intro d hI hD
    obtain ⟨hI', hD'⟩ := swapLeads_preserves d hI hD p.1 p.2
    simpa only [makeSwaps, List.foldl_cons] using ih (swapLeads d p.1 p.2) hI' hD'

/- ### The machine -/

/-- `Machine`: the ordered rotor stack `_rotors` (index 0 = rightmost =
fastest), the reflector's right-facing dict (the only direction the
reflector is ever traversed, with position and ring both 0 so its
shift sandwich is the identity), and the plugboard dict. -/
structure Machine where
  rotors : List Rotor
  reflMap : Fin 26 → Fin 26
  plug : Fin 26 → Fin 26

/-- `Machine.rotateRotor(0)`: raises `ValueError('Invalid slot')` when the
stack is empty (`0 not in range(0)`); with one or two rotors the reads
`self._rotors[1]` / `self._rotors[2]` raise `IndexError`; otherwise the
two notch booleans are snapshotted from the pre-step state and the
rotations are applied in the order r2, r1, r0. -/
def stepRotors : List Rotor → Except EErr (List Rotor)
  | [] => .error .invalidSlot
  | [_] => .error .indexError
  | [_, _] => .error .indexError
  | r0 :: r1 :: r2 :: rest =>
    let n0 := atNotch r0
    let n1 := atNotch r1
    let r2' := if n1 then rotate r2 else r2
    let r1' := if n0 || n1 then rotate r1 else r1
    .ok (rotate r0 :: r1' :: r2' :: rest)

/-- Right-to-left pass of `Machine.pressKey`: each rotor's
`encode_right_to_left`, rightmost (index 0) first. -/
def rtlPass (rs : List Rotor) (c : Fin 26) : Fin 26 :=
  rs.foldl (fun s r => encodeRTL r s) c

/-- Left-to-right pass of `Machine.pressKey`: each rotor's
`encode_left_to_right`, leftmost first (the list is traversed reversed). -/
def ltrPass (rs : List Rotor) (c : Fin 26) : Fin 26 :=
  rs.foldr (fun r s => encodeLTR r s) c

/-- The signal pipeline of `Machine.pressKey` after the stepping:
plugboard in, rotors right-to-left, reflector, rotors left-to-right,
plugboard out. -/
def pipelineAt (m : Machine) (k : Fin 26) : Fin 26 :=
  m.plug (ltrPass m.rotors (m.reflMap (rtlPass m.rotors (m.plug k))))

/-- `Machine.pressKey` with the default `rotate_first=True`: step the
rotors, then run the pipeline on the stepped state. -/
def pressKey (m : Machine) (k : Fin 26) : Except EErr (Machine × Fin 26) :=
  match stepRotors m.rotors with
  | .error e => .error e
  | .ok rs =>
    let m' : Machine := ⟨rs, m.reflMap, m.plug⟩
    .ok (m', pipelineAt m' k)

/-- `Machine.encode`: press each key in order, accumulating output while
the rotor state advances across the whole call. -/
def encodeM (m : Machine) : List (Fin 26) → Except EErr (Machine × List (Fin 26))
  | [] => .ok (m, [])
  | k :: ks =>
    match pressKey m k with
    | .error e => .error e
    | .ok (m1, c) =>
      match encodeM m1 ks with
      | .error e => .error e
      | .ok (m2, cs) => .ok (m2, c :: cs)

/- ### Pass and pipeline lemmas -/

theorem rtlPass_cons (r : Rotor) (rs : List Rotor) (c : Fin 26) :
    rtlPass (r :: rs) c = rtlPass rs (encodeRTL r c) := rfl

theorem ltrPass_cons (r : Rotor) (rs : List Rotor) (c : Fin 26) :
    ltrPass (r :: rs) c = encodeLTR r (ltrPass rs c) := rfl

theorem ltrPass_rtlPass (rs : List Rotor) (c : Fin 26) :
    ltrPass rs (rtlPass rs c) = c := by
  induction rs generalizing c with
  | nil => rfl
  | cons r rs ih =>
    rw [rtlPass_cons, ltrPass_cons, ih, encodeLTR_encodeRTL]

theorem rtlPass_ltrPass (rs : List Rotor) (c : Fin 26) :
    rtlPass rs (ltrPass rs c) = c := by
  induction rs generalizing c with
  | nil => rfl
  | cons r rs ih =>
    rw [rtlPass_cons, ltrPass_cons, encodeRTL_encodeLTR, ih]

/-- Machine state invariant needed for the round trip: plugboard and
reflector dicts are involutions. -/
def MInv (m : Machine) : Prop :=
  (∀ x, m.plug (m.plug x) = x) ∧ (∀ x, m.reflMap (m.reflMap x) = x)

/-- At a fixed rotor state the key-press pipeline is an involution. -/
theorem pipelineAt_invol (m : Machine) (h : MInv m) (k : Fin 26) :
    pipelineAt m (pipelineAt m k) = k := by
  obtain ⟨hp, hr⟩ := h
  simp only [pipelineAt, hp, rtlPass_ltrPass, hr, ltrPass_rtlPass]

/-- With a fixed-point-free reflector the pipeline never returns its
input. -/
theorem pipelineAt_ne (m : Machine) (hp : ∀ x, m.plug (m.plug x) = x)
    (hd : ∀ x, m.reflMap x ≠ x) (k : Fin 26) :
    pipelineAt m k ≠ k := by
  intro h
  have h1 : ltrPass m.rotors (m.reflMap (rtlPass m.rotors (m.plug k)))
      = m.plug k := by
    have := congrArg m.plug h
    rwa [pipelineAt, hp] at this
  have h2 := congrArg (rtlPass m.rotors) h1
  rw [rtlPass_ltrPass] at h2
  exact hd _ h2

/- ### Stepping and encoding facts -/

theorem stepRotors_ok (rs : List Rotor) (h : 3 ≤ rs.length) :
    ∃ rs', stepRotors rs = .ok rs' ∧ rs'.length = rs.length := by
  match rs, h with
  | r0 :: r1 :: r2 :: rest, _ =>
    refine ⟨_, rfl, ?_⟩
    simp [List.length_cons]

theorem stepRotors_err (rs : List Rotor) (h : rs.length < 3) :
    ∃ e, stepRotors rs = .error e := by
  match rs, h with
  | [], _ => exact ⟨_, rfl⟩
  | [_], _ => exact ⟨_, rfl⟩
  | [_, _], _ => exact ⟨_, rfl⟩

theorem stepRotors_length (rs rs' : List Rotor)
    (h : stepRotors rs = .ok rs') : rs'.length = rs.length := by
  match rs, h with
  | r0 :: r1 :: r2 :: rest, h =>
    simp only [stepRotors, Except.ok.injEq] at h
    subst h
    simp [List.length_cons]

/-- `pressKey` success determines the new machine independently of the key:
the stepped rotors with unchanged reflector and plugboard, and the output
is the pipeline at the stepped state. -/
theorem pressKey_ok_iff (m : Machine) (k : Fin 26) (m' : Machine) (c : Fin 26) :
    pressKey m k = .ok (m', c) ↔
      ∃ rs, stepRotors m.rotors = .ok rs ∧
        m' = ⟨rs, m.reflMap, m.plug⟩ ∧ c = pipelineAt ⟨rs, m.reflMap, m.plug⟩ k := by
  constructor
  · intro h
    unfold pressKey at h
    cases hs : stepRotors m.rotors with
    | error e => rw [hs] at h; exact absurd h (by simp)
    | ok rs =>
      rw [hs] at h
      simp only [Except.ok.injEq, Prod.mk.injEq] at h
      exact ⟨rs, rfl, h.1.symm, h.2.symm⟩
  · rintro ⟨rs, hs, hm, hc⟩
    unfold pressKey
    rw [hs, hm, hc]

theorem encodeM_nil (m : Machine) : encodeM m [] = .ok (m, []) := rfl

/-- Successful encoding preserves the machine's plugboard, reflector and
rotor count. -/
theorem encodeM_preserves (P : List (Fin 26)) :
    ∀ (m m' : Machine) (C : List (Fin 26)), encodeM m P = .ok (m', C) →
    m'.plug = m.plug ∧ m'.reflMap = m.reflMap ∧
      m'.rotors.length = m.rotors.length ∧ C.length = P.length := by
  induction P with
  | nil =>
    intro m m' C h
    simp only [encodeM, Except.ok.injEq, Prod.mk.injEq] at h
    obtain ⟨h1, h2⟩ := h
    subst h1; subst h2
    exact ⟨rfl, rfl, rfl, rfl⟩
  | cons k ks ih =>
    intro m m' C h
    unfold encodeM at h
    cases h1 : pressKey m k with
    | error e => rw [h1] at h; exact absurd h (by simp)
    | ok mc =>
      rw [h1] at h
      obtain ⟨m1, c⟩ := mc
      dsimp only at h
      cases h2 : encodeM m1 ks with
      | error e => rw [h2] at h; exact absurd h (by simp)
      | ok mcs =>
        rw [h2] at h
        dsimp only at h
        obtain ⟨m2, cs⟩ := mcs
        simp only [Except.ok.injEq, Prod.mk.injEq] at h
        obtain ⟨hm, hC⟩ := h
        subst hm
        obtain ⟨rs, hs, hm1, _⟩ := (pressKey_ok_iff m k m1 c).mp h1
        obtain ⟨p1, p2, p3, p4⟩ := ih m1 m2 cs h2
        subst hm1
        refine ⟨p1, p2, ?_, ?_⟩
        · rw [p3]
          exact stepRotors_length _ _ hs
        · rw [← hC]
          simp [p4]

/-- Encoding is total on machines with at least three rotors. -/
theorem encodeM_total (P : List (Fin 26)) :
    ∀ (m : Machine), 3 ≤ m.rotors.length →
    ∃ m' C, encodeM m P = .ok (m', C) := by
  induction P with
  | nil => intro m _; exact ⟨m, [], rfl⟩
  | cons k ks ih =>
    intro m h3
    obtain ⟨rs, hs, hlen⟩ := stepRotors_ok m.rotors h3
    have hpk : pressKey m k =
        .ok (⟨rs, m.reflMap, m.plug⟩, pipelineAt ⟨rs, m.reflMap, m.plug⟩ k) := by
      unfold pressKey
      rw [hs]
    obtain ⟨m', C, hrec⟩ := ih ⟨rs, m.reflMap, m.plug⟩ (by simpa [hlen] using h3)
    refine ⟨m', pipelineAt ⟨rs, m.reflMap, m.plug⟩ k :: C, ?_⟩
    unfold encodeM
    rw [hpk]
    dsimp only
    rw [hrec]

/-- The defining round trip: if an `MInv` machine encodes `P` to `C`, the
same machine value re-run on `C` returns `P` (and ends in the same rotor
state). -/
theorem encodeM_round (P : List (Fin 26)) :
    ∀ (m m' : Machine) (C : List (Fin 26)), MInv m →
    encodeM m P = .ok (m', C) → encodeM m C = .ok (m', P) := by
  induction P with
  | nil =>
    intro m m' C hinv h
    simp only [encodeM, Except.ok.injEq, Prod.mk.injEq] at h
    obtain ⟨h1, h2⟩ := h
    subst h1; subst h2
    rfl
  | cons k ks ih =>
    intro m m' C hinv h
    unfold encodeM at h
    cases h1 : pressKey m k with
    | error e => rw [h1] at h; exact absurd h (by simp)
    | ok mc =>
      rw [h1] at h
      obtain ⟨m1, c⟩ := mc
      dsimp only at h
      cases h2 : encodeM m1 ks with
      | error e => rw [h2] at h; exact absurd h (by simp)
      | ok mcs =>
        rw [h2] at h
        dsimp only at h
        obtain ⟨m2, cs⟩ := mcs
        simp only [Except.ok.injEq, Prod.mk.injEq] at h
        obtain ⟨hm, hC⟩ := h
        subst hm
        obtain ⟨rs, hs, hm1, hc⟩ := (pressKey_ok_iff m k m1 c).mp h1
        have hinv1 : MInv m1 := by
          rw [hm1]
          exact hinv
        have hpk2 : pressKey m c = .ok (m1, pipelineAt m1 c) := by
          rw [pressKey_ok_iff]
          exact ⟨rs, hs, hm1, by rw [hm1]⟩
        have hcc : pipelineAt m1 c = k := by
          rw [hc, hm1]
          exact pipelineAt_invol _ (by rw [← hm1]; exact hinv1) k
        rw [← hC]
        unfold encodeM
        rw [hpk2, hcc]
        dsimp only
        rw [ih m1 m2 cs hinv1 h2]

/- ### Settings tokens and machine construction -/

/-- A normalized position/ring setting token handed to
`Machine.convertPosition`: an uppercase letter of the fixed alphabet, a
lowercase ASCII letter (alphabetic for `isalpha` but absent from
`ALPHABET`), or an integer-convertible numeric string of value `n`. -/
inductive Tok where
  | letter (c : Fin 26)
  | lowercase (c : Fin 26)
  | num (n : ℤ)
deriving DecidableEq, Repr

/-- `Machine.convertPosition`: `ALPHABET.index` for alphabetic tokens
(raising `ValueError` for a lowercase letter, which is not a substring of
`ALPHABET`), else `int(position) - 1`. -/
def convTok : Tok → Except EErr ℤ
  | .letter c => .ok (c.1 : ℤ)
  | .lowercase _ => .error .valueError
  | .num n => .ok (n - 1)

/-- The value `convTok` produces when it succeeds. -/
def convVal : Tok → ℤ
  | .letter c => (c.1 : ℤ)
  | .lowercase _ => 0
  | .num n => n - 1

/-- A position token that converts and lands in `range(26)`, so that
`rotateToPosition` accepts it. -/
def posTokOk (t : Tok) : Bool :=
  match convTok t with
  | .ok v => decide (0 ≤ v ∧ v < 26)
  | .error _ => false

/-- Membership in `REFLECTOR_OPTIONS`, checked by `Machine.__init__`. -/
def isReflName : RName → Bool
  | .refA | .refB | .refC => true
  | _ => false

/-- Sequence a list of fallible results, stopping at the first error, as a
Python list comprehension does. -/
def exList {α : Type} : List (Except EErr α) → Except EErr (List α)
  | [] => .ok []
  | x :: xs =>
    match x with
    | .error e => .error e
    | .ok a =>
      match exList xs with
      | .error e => .error e
      | .ok as => .ok (a :: as)

/-- Build the rotor list from name/position/ring triples taken pairwise. -/
def mkRotorsFwd : List RName → List (Fin 26) → List ℤ → List Rotor
  | n :: ns, p :: ps, g :: gs => ⟨n, p, g⟩ :: mkRotorsFwd ns ps gs
  | _, _, _ => []

/-- `Machine.addRotorSet` inserts the left-to-right rotor names reversed,
so `_rotors[0]` is the rightmost rotor, and `Machine.applySetting`
enumerates `reversed(setting)`, so settings are also left-to-right. -/
def mkRotors (names : List RName) (ps : List (Fin 26)) (gs : List ℤ) :
    List Rotor :=
  mkRotorsFwd names.reverse ps.reverse gs.reverse

/-- `Machine.__init__` over normalized inputs: check that the position and
ring lists match the rotor count (`handleTripletInputs`), convert all
position tokens (`convertPosition`), apply them through
`rotateToPosition` (range check), convert all ring tokens, store them
through `setRingOffset` (no range check), validate the reflector name,
then attach the reflector dict with its lead swaps and the plugboard. -/
def buildTok (names : List RName) (rn : RName) (pT rT : List Tok)
    (pb sw : List (Fin 26 × Fin 26)) : Except EErr Machine :=
  if pT.length ≠ names.length then .error .valueError
  else if rT.length ≠ names.length then .error .valueError
  else
    match exList (pT.map convTok) with
    | .error e => .error e
    | .ok pvs =>
      match exList (pvs.map toPos) with
      | .error e => .error e
      | .ok ps =>
        match exList (rT.map convTok) with
        | .error e => .error e
        | .ok gs =>
          if isReflName rn then
            .ok ⟨mkRotors names ps gs, makeSwaps (rightOf rn) sw,
              plugboardOf pb⟩
          else .error .valueError

/- ### Sequencing lemmas -/

theorem exList_map_ok {α β : Type} (f : α → Except EErr β) :
    ∀ (l : List α), (∀ x ∈ l, (f x).isOk = true) →
    ∃ bs, exList (l.map f) = .ok bs ∧
      List.Forall₂ (fun a b => f a = .ok b) l bs := by
  intro l
  induction l with
  | nil => intro _; exact ⟨[], rfl, List.Forall₂.nil⟩
  | cons x xs ih =>
    intro h
    have hx := h x (List.mem_cons_self x xs)
    cases hfx : f x with
    | error e => rw [hfx] at hx; exact absurd hx (by simp [Except.isOk, Except.toBool])
    | ok b =>
      obtain ⟨bs, hbs, hall⟩ := ih (fun y hy => h y (List.mem_cons_of_mem x hy))
      refine ⟨b :: bs, ?_, List.Forall₂.cons hfx hall⟩
      simp only [List.map_cons, exList, hfx, hbs]

theorem exList_ok_forall₂ {α β : Type} (f : α → Except EErr β) :
    ∀ (l : List α) (bs : List β), exList (l.map f) = .ok bs →
    List.Forall₂ (fun a b => f a = .ok b) l bs := by
  intro l
  induction l with
  | nil =>
    intro bs h
    simp only [List.map_nil, exList, Except.ok.injEq] at h
    subst h
    exact List.Forall₂.nil
  | cons x xs ih =>
    intro bs h
    simp only [List.map_cons, exList] at h
    cases hfx : f x with
    | error e => rw [hfx] at h; exact absurd h (by simp)
    | ok b =>
      rw [hfx] at h
      cases hrec : exList (xs.map f) with
      | error e => rw [hrec] at h; exact absurd h (by simp)
      | ok bs' =>
        rw [hrec] at h
        simp only [Except.ok.injEq] at h
        subst h
        exact List.Forall₂.cons hfx (ih bs' hrec)

theorem exList_map_err {α β : Type} (f : α → Except EErr β) :
    ∀ (l : List α) (x : α), x ∈ l → (f x).isOk = false →
    ∃ e, exList (l.map f) = .error e := by
  intro l
  induction l with
  | nil => intro x hx _; exact absurd hx (List.not_mem_nil x)
  | cons y ys ih =>
    intro x hx hbad
    rcases List.mem_cons.mp hx with h | h
    · subst h
      cases hfx : f x with
      | error e => exact ⟨e, by simp only [List.map_cons, exList, hfx]⟩
      | ok b => rw [hfx] at hbad; exact absurd hbad (by simp [Except.isOk, Except.toBool])
    · cases hfy : f y with
      | error e => exact ⟨e, by simp only [List.map_cons, exList, hfy]⟩
      | ok b =>
        obtain ⟨e, he⟩ := ih x h hbad
        exact ⟨e, by simp only [List.map_cons, exList, hfy, he]⟩

theorem forall₂_mem_left {α β : Type} {R : α → β → Prop} :
    ∀ {l : List α} {bs : List β}, List.Forall₂ R l bs →
    ∀ a ∈ l, ∃ b ∈ bs, R a b := by
  intro l bs h
  induction h with
  | nil => intro a ha; exact absurd ha (List.not_mem_nil a)
  | @cons x y xs ys hxy _ ih =>
    intro a ha
    rcases List.mem_cons.mp ha with h' | h'
    · subst h'
      exact ⟨y, List.mem_cons_self y ys, hxy⟩
    · obtain ⟨b, hb, hR⟩ := ih a h'
      exact ⟨b, List.mem_cons_of_mem y hb, hR⟩

theorem forall₂_mem_right {α β : Type} {R : α → β → Prop} :
    ∀ {l : List α} {bs : List β}, List.Forall₂ R l bs →
    ∀ b ∈ bs, ∃ a ∈ l, R a b := by
  intro l bs h
  induction h with
  | nil => intro b hb; exact absurd hb (List.not_mem_nil b)
  | @cons x y xs ys hxy _ ih =>
    intro b hb
    rcases List.mem_cons.mp hb with h' | h'
    · subst h'
      exact ⟨x, List.mem_cons_self x xs, hxy⟩
    · obtain ⟨a, ha, hR⟩ := ih b h'
      exact ⟨a, List.mem_cons_of_mem x ha, hR⟩

theorem convTok_ok_val (t : Tok) (v : ℤ) (h : convTok t = .ok v) :
    v = convVal t := by
  cases t with
  | letter c => simp only [convTok, Except.ok.injEq] at h; rw [← h]; rfl
  | lowercase c => exact absurd h (by simp [convTok])
  | num n => simp only [convTok, Except.ok.injEq] at h; rw [← h]; rfl

theorem posTokOk_iff (t : Tok) :
    posTokOk t = true ↔ ∃ v, convTok t = .ok v ∧ 0 ≤ v ∧ v < 26 := by
  unfold posTokOk
  cases h : convTok t with
  | error e => simp
  | ok v => simp [h]

theorem toPos_ok (v : ℤ) (h : 0 ≤ v ∧ v < 26) :
    toPos v = .ok ⟨v.toNat, by omega⟩ := by
  simp only [toPos, dif_pos h]

/- ### Rotor list construction lemmas -/

theorem mkRotorsFwd_length : ∀ (ns : List RName) (ps : List (Fin 26))
    (gs : List ℤ), ps.length = ns.length → gs.length = ns.length →
    (mkRotorsFwd ns ps gs).length = ns.length := by
  intro ns
  induction ns with
  | nil => intro ps gs _ _; cases ps <;> cases gs <;> rfl
  | cons n ns ih =>
    intro ps gs hp hg
    cases ps with
    | nil => exact absurd hp (by simp)
    | cons p ps =>
      cases gs with
      | nil => exact absurd hg (by simp)
      | cons g gs =>
        simp only [mkRotorsFwd, List.length_cons] at hp hg ⊢
        rw [ih ps gs (by omega) (by omega)]

theorem mkRotorsFwd_ring : ∀ (ns : List RName) (ps : List (Fin 26))
    (gs : List ℤ), ps.length = ns.length → gs.length = ns.length →
    (mkRotorsFwd ns ps gs).map (fun r => r.ring) = gs := by
  intro ns
  induction ns with
  | nil =>
    intro ps gs _ hg
    cases gs with
    | nil => cases ps <;> rfl
    | cons g gs => exact absurd hg (by simp)
  | cons n ns ih =>
    intro ps gs hp hg
    cases ps with
    | nil => exact absurd hp (by simp)
    | cons p ps =>
      cases gs with
      | nil => exact absurd hg (by simp)
      | cons g gs =>
        simp only [mkRotorsFwd, List.map_cons, List.length_cons] at hp hg ⊢
        rw [ih ps gs (by omega) (by omega)]

/- ### Machine construction characterization -/

theorem buildTok_ok (names : List RName) (rn : RName) (pT rT : List Tok)
    (pb sw : List (Fin 26 × Fin 26))
    (h1 : pT.length = names.length) (h2 : rT.length = names.length)
    (hrefl : isReflName rn = true)
    (hpos : ∀ t ∈ pT, posTokOk t = true)
    (hring : ∀ t ∈ rT, (convTok t).isOk = true) :
    ∃ m, buildTok names rn pT rT pb sw = .ok m ∧
      m.rotors.length = names.length ∧
      m.plug = plugboardOf pb ∧
      m.reflMap = makeSwaps (rightOf rn) sw ∧
      m.rotors.map (fun r => r.ring) = (rT.map convVal).reverse := by
  have hpos' : ∀ t ∈ pT, (convTok t).isOk = true := by
    intro t ht
    obtain ⟨v, hv, _⟩ := (posTokOk_iff t).mp (hpos t ht)
    rw [hv]; rfl
  obtain ⟨pvs, hpvs, hall1⟩ := exList_map_ok convTok pT hpos'
  have hallpos : ∀ v ∈ pvs, (toPos v).isOk = true := by
    intro v hv
    obtain ⟨t, ht, hconv⟩ := forall₂_mem_right hall1 v hv
    obtain ⟨v', hv', hrange⟩ := (posTokOk_iff t).mp (hpos t ht)
    rw [hconv] at hv'
    simp only [Except.ok.injEq] at hv'
    subst hv'
    rw [toPos_ok v hrange]; rfl
  obtain ⟨ps, hps, hall2⟩ := exList_map_ok toPos pvs hallpos
  obtain ⟨gs, hgs, hall3⟩ := exList_map_ok convTok rT hring
  have hlen_pvs : pvs.length = pT.length := (List.Forall₂.length_eq hall1).symm
  have hlen_ps : ps.length = pvs.length := (List.Forall₂.length_eq hall2).symm
  have hlen_gs : gs.length = rT.length := (List.Forall₂.length_eq hall3).symm
  have hgs_val : gs = rT.map convVal := by
    clear hgs hring h2 hlen_gs
    induction hall3 with
    | nil => rfl
    | @cons t v ts vs htv _ ih =>
      simp only [List.map_cons, List.cons.injEq]
      exact ⟨convTok_ok_val t v htv, ih⟩
  refine ⟨⟨mkRotors names ps gs, makeSwaps (rightOf rn) sw, plugboardOf pb⟩,
    ?_, ?_, rfl, rfl, ?_⟩
  · unfold buildTok
    rw [if_neg (by simp [h1]), if_neg (by simp [h2])]
    simp only [hpvs, hps, hgs, hrefl, if_true]
  · simp only
    unfold mkRotors
    rw [mkRotorsFwd_length]
    · exact List.length_reverse names
    · simp only [List.length_reverse]; omega
    · simp only [List.length_reverse]; omega
  · simp only
    unfold mkRotors
    rw [mkRotorsFwd_ring]
    · rw [hgs_val]
    · simp only [List.length_reverse]; omega
    · simp only [List.length_reverse]; omega

theorem buildTok_err_pos (names : List RName) (rn : RName)
    (pT rT : List Tok) (pb sw : List (Fin 26 × Fin 26))
    (h1 : pT.length = names.length) (h2 : rT.length = names.length)
    (t : Tok) (ht : t ∈ pT) (hbad : posTokOk t = false) :
    ∃ e, buildTok names rn pT rT pb sw = .error e := by
  unfold buildTok
  rw [if_neg (by simp [h1]), if_neg (by simp [h2])]
  cases hpvs : exList (pT.map convTok) with
  | error e => exact ⟨e, rfl⟩
  | ok pvs =>
    have hall1 := exList_ok_forall₂ convTok pT pvs hpvs
    obtain ⟨v, hv, hconv⟩ := forall₂_mem_left hall1 t ht
    dsimp only
    have hrange : ¬ (0 ≤ v ∧ v < 26) := by
      intro hr
      rw [(posTokOk_iff t).mpr ⟨v, hconv, hr⟩] at hbad
      exact absurd hbad (by simp)
    have htp : (toPos v).isOk = false := by
      simp only [toPos, dif_neg hrange]; rfl
    obtain ⟨e, he⟩ := exList_map_err toPos pvs v hv htp
    refine ⟨e, ?_⟩
    simp only [he]

theorem buildTok_err_ring (names : List RName) (rn : RName)
    (pT rT : List Tok) (pb sw : List (Fin 26 × Fin 26))
    (h1 : pT.length = names.length) (h2 : rT.length = names.length)
    (t : Tok) (ht : t ∈ rT) (hbad : (convTok t).isOk = false) :
    ∃ e, buildTok names rn pT rT pb sw = .error e := by
  unfold buildTok
  rw [if_neg (by simp [h1]), if_neg (by simp [h2])]
  cases hpvs : exList (pT.map convTok) with
  | error e => exact ⟨e, rfl⟩
  | ok pvs =>
    dsimp only
    cases hps : exList (pvs.map toPos) with
    | error e => exact ⟨e, by simp only [hps]⟩
    | ok ps =>
      obtain ⟨e, he⟩ := exList_map_err convTok rT t ht hbad
      refine ⟨e, ?_⟩
      simp only [hps, he]

/- ### Further stepping / error-path lemmas -/

/-- The three reflector wirings are involutive derangements. -/
theorem refl_base : ∀ (n : RName), isReflName n = true →
    ∀ (c : Fin 26), rightOf n (rightOf n c) = c ∧ rightOf n c ≠ c := by
  decide

theorem pressKey_err (m : Machine) (k : Fin 26) (e : EErr)
    (h : stepRotors m.rotors = .error e) : pressKey m k = .error e := by
  unfold pressKey
  rw [h]

theorem encodeM_cons_err (m : Machine) (k : Fin 26) (ks : List (Fin 26))
    (e : EErr) (h : pressKey m k = .error e) :
    encodeM m (k :: ks) = .error e := by
  unfold encodeM
  simp only [h]

theorem stepRotors_high (rs rs' : List Rotor)
    (h : stepRotors rs = .ok rs') :
    ∀ i, 3 ≤ i → rs'.getD i d0 = rs.getD i d0 := by
  match rs, h with
  | r0 :: r1 :: r2 :: rest, h =>
    simp only [stepRotors, Except.ok.injEq] at h
    subst h
    intro i hi
    match i, hi with
    | (j + 3), _ => simp [List.getD]

/-- Automatic stepping during `encode` never touches rotors at slot
index 3 or higher. -/
theorem encodeM_high (inp : List (Fin 26)) :
    ∀ (m m' : Machine) (out : List (Fin 26)),
    encodeM m inp = .ok (m', out) →
    ∀ i, 3 ≤ i → m'.rotors.getD i d0 = m.rotors.getD i d0 := by
  induction inp with
  | nil =>
    intro m m' out h
    simp only [encodeM, Except.ok.injEq, Prod.mk.injEq] at h
    obtain ⟨h1, _⟩ := h
    subst h1
    intro i _
    rfl
  | cons k ks ih =>
    intro m m' out h
    unfold encodeM at h
    cases h1 : pressKey m k with
    | error e => rw [h1] at h; exact absurd h (by simp)
    | ok mc =>
      rw [h1] at h
      obtain ⟨m1, c⟩ := mc
      dsimp only at h
      cases h2 : encodeM m1 ks with
      | error e => rw [h2] at h; exact absurd h (by simp)
      | ok mcs =>
        rw [h2] at h
        dsimp only at h
        obtain ⟨m2, cs⟩ := mcs
        simp only [Except.ok.injEq, Prod.mk.injEq] at h
        obtain ⟨hm, _⟩ := h
        subst hm
        intro i hi
        obtain ⟨rs, hs, hm1, _⟩ := (pressKey_ok_iff m k m1 c).mp h1
        rw [ih m1 m2 cs h2 i hi, hm1]
        exact stepRotors_high m.rotors rs hs i hi

/- ### Character-level model for `EncodingDict.encode` and `PlugLead` -/

/-- A Python character as `EncodingDict.encode` distinguishes them: an
uppercase letter of the fixed `ALPHABET`, a lowercase ASCII letter, some
other character for which `str.isalpha()` holds (e.g. non-ASCII
alphabetic), or a non-alphabetic character. -/
inductive PChar where
  | up (i : Fin 26)
  | low (i : Fin 26)
  | otherAlpha (code : ℕ)
  | nonAlpha (code : ℕ)
deriving DecidableEq, Repr

/-- Python's `str.isalpha()` on a single character. -/
def pyIsAlpha : PChar → Bool
  | .up _ => true
  | .low _ => true
  | .otherAlpha _ => true
  | .nonAlpha _ => false

/-- A Python value passed to `encode` / `PlugLead.__init__`: a string of
characters, or any non-string value. -/
inductive PyVal where
  | str (s : List PChar)
  | nonStr
deriving DecidableEq, Repr

/-- `EncodingDict.encode` on a freshly initialised dict: `TypeError` for a
non-string, `ValueError` unless the string has exactly one character,
`ValueError` unless `isalpha()`, and finally the dict lookup — the fresh
dict maps each of the 26 uppercase letters to itself, so any other
alphabetic character raises `KeyError`. -/
def baseEncode : PyVal → Except EErr PChar
  | .nonStr => .error .typeError
  | .str [c] =>
    if pyIsAlpha c = false then .error .valueError
    else
      match c with
      | .up i => .ok (.up i)
      | _ => .error .keyError
  | .str _ => .error .valueError

/-- The fresh `EncodingDict` as a partial map: uppercase letters map to
themselves, everything else is not a key. -/
def plugLeadBase : PChar → Option PChar
  | .up i => some (.up i)
  | _ => none

/-- The dict after `PlugLead.__init__` writes `dict[m0] = m1` then
`dict[m1] = m0` (the later write wins at key `m1`). -/
def plugLeadDict (a b : PChar) : PChar → Option PChar :=
  fun c => if c = b then some a else if c = a then some b else plugLeadBase c

/-- `PlugLead.__init__`: `TypeError` for a non-string, `ValueError` unless
the string has exactly two characters, `ValueError` unless `isalpha()`;
distinctness of the two characters is not checked. -/
def plugLeadInit : PyVal → Except EErr (PChar → Option PChar)
  | .nonStr => .error .typeError
  | .str [a, b] =>
    if pyIsAlpha a && pyIsAlpha b then .ok (plugLeadDict a b)
    else .error .valueError
  | .str _ => .error .valueError

/- ### Spec-side description of the rotor sandwich (for C3) -/

/-- Shift a letter index by a fixed amount, modulo 26. -/
def shiftIdx (k : ℤ) (x : Fin 26) : Fin 26 :=
  intToFin ((x.1 : ℤ) + k)

/-- Written from the spec's words, to be compared with the source
embedding `encodeRTL`: shift the index by `(position - ringOffset) mod
26`, apply the forward wiring table, shift back by
`(-position + ringOffset) mod 26`. -/
def specRTL (n : RName) (p r x : Fin 26) : Fin 26 :=
  shiftIdx (-(p.1 : ℤ) + (r.1 : ℤ)) (rightOf n (shiftIdx ((p.1 : ℤ) - (r.1 : ℤ)) x))

/-- Written from the spec's words, to be compared with the source
embedding `encodeLTR`: the same sandwich through the inverse wiring
table. -/
def specLTR (n : RName) (p r x : Fin 26) : Fin 26 :=
  shiftIdx (-(p.1 : ℤ) + (r.1 : ℤ)) (leftOf n (shiftIdx ((p.1 : ℤ) - (r.1 : ℤ)) x))

theorem c3_shiftIn_eq (n : RName) (p r : Fin 26) (x : Fin 26) :
    shiftIn ⟨n, p, (r.1 : ℤ)⟩ x = shiftIdx ((p.1 : ℤ) - (r.1 : ℤ)) x := by
  apply Fin.ext
  dsimp only [shiftIn, shiftIdx, intToFin]
  omega

/- ### Claim theorems -/

/-- C1: for every valid machine configuration (rotor names, reflector
name, ring settings, start positions, disjoint plugboard pairs, reflector
swap pairs) the machine builds, and if it encodes plaintext `P` to
ciphertext `C`, a second machine built from the same settings (`buildTok`
is a function, so it is the same machine value) fed `C` returns `P`. -/
theorem C1_round_trip (names : List RName) (rn : RName) (pT rT : List Tok)
    (pb sw : List (Fin 26 × Fin 26))
    (h1 : pT.length = names.length) (h2 : rT.length = names.length)
    (h3 : 3 ≤ names.length) (hrefl : isReflName rn = true)
    (hpos : ∀ t ∈ pT, posTokOk t = true)
    (hring : ∀ t ∈ rT, (convTok t).isOk = true)
    (hdisj : disjointPairs pb = true) :
    ∃ m, buildTok names rn pT rT pb sw = .ok m ∧
      ∀ P, ∃ C mf, encodeM m P = .ok (mf, C) ∧ encodeM m C = .ok (mf, P) := by
  obtain ⟨m, hm, hlen, hplug, hrmap, _⟩ :=
    buildTok_ok names rn pT rT pb sw h1 h2 hrefl hpos hring
  refine ⟨m, hm, ?_⟩
  intro P
  have hbase := refl_base rn hrefl
  have hinv : MInv m := by
    constructor
    · rw [hplug]
      exact plugboardOf_invol pb hdisj
    · rw [hrmap]
      exact (makeSwaps_preserves sw (rightOf rn)
        (fun c => (hbase c).1) (fun c => (hbase c).2)).1
  obtain ⟨mf, C, henc⟩ := encodeM_total P m (by rw [hlen]; exact h3)
  exact ⟨C, mf, henc, encodeM_round P m mf C hinv henc⟩

/-- C1 witness: a concrete configuration and plaintext, round-tripped. -/
theorem C1_round_trip_witness :
    ∃ m, buildTok [RName.rI, RName.rII, RName.rIII] RName.refB
        [Tok.letter 0, Tok.letter 0, Tok.letter 25]
        [Tok.num 1, Tok.letter 1, Tok.num 26]
        [(0, 1), (4, 10)] [(2, 3)] = .ok m ∧
      ∃ C mf, encodeM m [7, 4, 11, 11, 14] = .ok (mf, C) ∧
        encodeM m C = .ok (mf, [7, 4, 11, 11, 14]) := by
  obtain ⟨m, hm, h⟩ := C1_round_trip
    [RName.rI, RName.rII, RName.rIII] RName.refB
    [Tok.letter 0, Tok.letter 0, Tok.letter 25]
    [Tok.num 1, Tok.letter 1, Tok.num 26]
    [(0, 1), (4, 10)] [(2, 3)]
    (by decide) (by decide) (by decide) (by decide)
    (by decide) (by decide) (by decide)
  exact ⟨m, hm, h [7, 4, 11, 11, 14]⟩

/-- C2: the stepping transition performed before the pipeline on a key
press is exactly: r0 always advances one position; r1 advances iff r0 or
r1 was at its notch; r2 advances iff r1 was at its notch — both conditions
evaluated on the pre-step positions (snapshot semantics) — and no rotor at
slot 3 or higher moves. -/
theorem C2_stepping (m : Machine) (r0 r1 r2 : Rotor) (rest : List Rotor)
    (hr : m.rotors = r0 :: r1 :: r2 :: rest) (k : Fin 26) (m' : Machine)
    (c : Fin 26) (h : pressKey m k = .ok (m', c)) :
    (m'.rotors.getD 0 d0).pos = r0.pos + 1 ∧
    (m'.rotors.getD 1 d0).pos =
      (if atNotch r0 || atNotch r1 then r1.pos + 1 else r1.pos) ∧
    (m'.rotors.getD 2 d0).pos =
      (if atNotch r1 then r2.pos + 1 else r2.pos) ∧
    (∀ i, 3 ≤ i → m'.rotors.getD i d0 = m.rotors.getD i d0) ∧
    (m'.rotors.getD 1 d0).name = r1.name ∧
    (m'.rotors.getD 2 d0).name = r2.name ∧
    m'.rotors.length = m.rotors.length := by
  obtain ⟨rs, hs, hm', _⟩ := (pressKey_ok_iff m k m' c).mp h
  have hstep : stepRotors m.rotors = .ok
      (rotate r0 ::
        (if atNotch r0 || atNotch r1 then rotate r1 else r1) ::
        (if atNotch r1 then rotate r2 else r2) :: rest) := by
    rw [hr]
    simp only [stepRotors]
  rw [hstep] at hs
  simp only [Except.ok.injEq] at hs
  subst hs
  have hhigh := stepRotors_high m.rotors _ (by rw [hstep])
  refine ⟨?_, ?_, ?_, ?_, ?_, ?_, ?_⟩
  · rw [hm']
    simp [rotate, List.getD]
  · rw [hm']
    cases hb : atNotch r0 || atNotch r1 <;> simp [rotate, List.getD]
  · rw [hm']
    cases hb : atNotch r1 <;> simp [rotate, List.getD]
  · intro i hi
    rw [hm']
    exact hhigh i hi
  · rw [hm']
    cases hb : atNotch r0 || atNotch r1 <;> simp [rotate, List.getD]
  · rw [hm']
    cases hb : atNotch r1 <;> simp [rotate, List.getD]
  · rw [hm', hr]
    simp

/-- C2 witness: with r0 at its notch (I at Q) and r1 at its notch
(II at E), one key press advances all three rotors. -/
theorem C2_stepping_witness :
    ∃ m' c, pressKey
        ⟨[⟨RName.rI, 16, 0⟩, ⟨RName.rII, 4, 0⟩, ⟨RName.rIII, 0, 0⟩],
          rightOf RName.refA, id⟩ 0 = .ok (m', c) ∧
      (m'.rotors.getD 0 d0).pos = 17 ∧
      (m'.rotors.getD 1 d0).pos = 5 ∧
      (m'.rotors.getD 2 d0).pos = 1 := by
  obtain ⟨m', c, h⟩ : ∃ m' c, pressKey
      ⟨[⟨RName.rI, 16, 0⟩, ⟨RName.rII, 4, 0⟩, ⟨RName.rIII, 0, 0⟩],
        rightOf RName.refA, id⟩ 0 = .ok (m', c) := ⟨_, _, rfl⟩
  obtain ⟨h0, h1, h2, _⟩ := C2_stepping _ ⟨RName.rI, 16, 0⟩
    ⟨RName.rII, 4, 0⟩ ⟨RName.rIII, 0, 0⟩ [] rfl 0 m' c h
  refine ⟨m', c, h, ?_, ?_, ?_⟩
  · rw [h0]
    decide
  · rw [h1]
    decide
  · rw [h2]
    decide

/-- C3: for every rotor from the catalog, position `p` and ring offset `r`
in `[0,26)`, and letter `x`, `encode_right_to_left` is exactly the spec's
sandwich — shift the index by `(p - r) mod 26`, apply the forward wiring
table, shift back by `(-p + r) mod 26` — and `encode_left_to_right` is the
same sandwich through the inverse wiring table. -/
theorem C3_shift_sandwich (n : RName) (p r x : Fin 26) :
    encodeRTL ⟨n, p, (r.1 : ℤ)⟩ x = specRTL n p r x ∧
    encodeLTR ⟨n, p, (r.1 : ℤ)⟩ x = specLTR n p r x := by
  have key : ∀ (w : Fin 26), unshiftOut ⟨n, p, (r.1 : ℤ)⟩ w =
      shiftIdx (-(p.1 : ℤ) + (r.1 : ℤ)) w := by
    intro w
    apply Fin.ext
    dsimp only [unshiftOut, shiftIdx, intToFin]
    omega
  constructor
  · calc encodeRTL ⟨n, p, (r.1 : ℤ)⟩ x
        = unshiftOut ⟨n, p, (r.1 : ℤ)⟩
            (rightOf n (shiftIn ⟨n, p, (r.1 : ℤ)⟩ x)) := rfl
      _ = shiftIdx (-(p.1 : ℤ) + (r.1 : ℤ))
            (rightOf n (shiftIdx ((p.1 : ℤ) - (r.1 : ℤ)) x)) := by
          rw [c3_shiftIn_eq, key]
      _ = specRTL n p r x := rfl
  · calc encodeLTR ⟨n, p, (r.1 : ℤ)⟩ x
        = unshiftOut ⟨n, p, (r.1 : ℤ)⟩
            (leftOf n (shiftIn ⟨n, p, (r.1 : ℤ)⟩ x)) := rfl
      _ = shiftIdx (-(p.1 : ℤ) + (r.1 : ℤ))
            (leftOf n (shiftIdx ((p.1 : ℤ) - (r.1 : ℤ)) x)) := by
          rw [c3_shiftIn_eq, key]
      _ = specLTR n p r x := rfl

/-- C4: the plugboard built from pairwise-disjoint two-letter pairs is an
involution: applying `encode` twice returns the input letter. -/
theorem C4_plugboard_involution (pairs : List (Fin 26 × Fin 26))
    (hdisj : disjointPairs pairs = true) (x : Fin 26) :
    plugboardOf pairs (plugboardOf pairs x) = x :=
  plugboardOf_invol pairs hdisj x

/-- C4 witness: a concrete disjoint pair list and letter. -/
theorem C4_plugboard_involution_witness :
    plugboardOf [(0, 1), (2, 3), (7, 20)]
      (plugboardOf [(0, 1), (2, 3), (7, 20)] 2) = 2 :=
  C4_plugboard_involution [(0, 1), (2, 3), (7, 20)] (by decide) 2

/-- C5: for every valid machine configuration and every key press from
every reachable state, the output letter differs from the input letter. -/
theorem C5_non_identity (names : List RName) (rn : RName) (pT rT : List Tok)
    (pb sw : List (Fin 26 × Fin 26))
    (h1 : pT.length = names.length) (h2 : rT.length = names.length)
    (h3 : 3 ≤ names.length) (hrefl : isReflName rn = true)
    (hpos : ∀ t ∈ pT, posTokOk t = true)
    (hring : ∀ t ∈ rT, (convTok t).isOk = true)
    (hdisj : disjointPairs pb = true) :
    ∃ m, buildTok names rn pT rT pb sw = .ok m ∧
      ∀ inp m1 out, encodeM m inp = .ok (m1, out) →
        ∀ k, ∃ m2 c, pressKey m1 k = .ok (m2, c) ∧ c ≠ k := by
  obtain ⟨m, hm, hlen, hplug, hrmap, _⟩ :=
    buildTok_ok names rn pT rT pb sw h1 h2 hrefl hpos hring
  refine ⟨m, hm, ?_⟩
  intro inp m1 out henc k
  obtain ⟨hplug1, hrmap1, hlen1, _⟩ := encodeM_preserves inp m m1 out henc
  obtain ⟨rs, hs, hlenrs⟩ := stepRotors_ok m1.rotors (by omega)
  have hbase := refl_base rn hrefl
  have hder : ∀ x, m.reflMap x ≠ x := by
    rw [hrmap]
    exact (makeSwaps_preserves sw (rightOf rn)
      (fun c => (hbase c).1) (fun c => (hbase c).2)).2
  have hpinv : ∀ x, m.plug (m.plug x) = x := by
    rw [hplug]
    exact plugboardOf_invol pb hdisj
  refine ⟨⟨rs, m1.reflMap, m1.plug⟩, pipelineAt ⟨rs, m1.reflMap, m1.plug⟩ k,
    ?_, ?_⟩
  · rw [pressKey_ok_iff]
    exact ⟨rs, hs, rfl, rfl⟩
  · apply pipelineAt_ne
    · intro x
      simp only [hplug1]
      exact hpinv x
    · intro x
      simp only [hrmap1]
      exact hder x

/-- C5 witness: a concrete machine, the empty press history, and key `A`. -/
theorem C5_non_identity_witness :
    ∃ m, buildTok [RName.rIII, RName.rII, RName.rI] RName.refC
        [Tok.letter 3, Tok.num 26, Tok.letter 0]
        [Tok.num 2, Tok.num 1, Tok.letter 0] [(5, 6)] [] = .ok m ∧
      ∃ m2 c, pressKey m 0 = .ok (m2, c) ∧ c ≠ 0 := by
  obtain ⟨m, hm, h⟩ := C5_non_identity
    [RName.rIII, RName.rII, RName.rI] RName.refC
    [Tok.letter 3, Tok.num 26, Tok.letter 0]
    [Tok.num 2, Tok.num 1, Tok.letter 0] [(5, 6)] []
    (by decide) (by decide) (by decide) (by decide)
    (by decide) (by decide) (by decide)
  exact ⟨m, hm, h [] m [] (encodeM_nil m) 0⟩

/-- C6: the base `EncodingDict.encode` succeeds exactly on a
single-character string holding an uppercase letter of the fixed alphabet,
returning that letter (identity dict); every other input — non-string,
wrong length, non-alphabetic, or alphabetic but outside the alphabet
(lowercase, non-ASCII) — fails with an error. -/
theorem C6_base_encode (v : PyVal) :
    (baseEncode v).isOk = true ↔
      ∃ i : Fin 26, v = .str [.up i] ∧ baseEncode v = .ok (.up i) := by
  constructor
  · intro h
    match v with
    | .nonStr => exact absurd h (by simp [baseEncode, Except.isOk, Except.toBool])
    | .str [] => exact absurd h (by simp [baseEncode, Except.isOk, Except.toBool])
    | .str [c] =>
      match c with
      | .up i => exact ⟨i, rfl, rfl⟩
      | .low i => exact absurd h (by simp [baseEncode, pyIsAlpha, Except.isOk, Except.toBool])
      | .otherAlpha j => exact absurd h (by simp [baseEncode, pyIsAlpha, Except.isOk, Except.toBool])
      | .nonAlpha j => exact absurd h (by simp [baseEncode, pyIsAlpha, Except.isOk, Except.toBool])
    | .str (c1 :: c2 :: rest) =>
      exact absurd h (by simp [baseEncode, Except.isOk, Except.toBool])
  · rintro ⟨i, hv, hok⟩
    rw [hok]
    rfl

/-- C6 witness: `encode("A")` succeeds while `encode("a")` (lowercase,
alphabetic but not a key of the fixed dict) fails. -/
theorem C6_base_encode_witness :
    (baseEncode (.str [.up 0])).isOk = true ∧
    (baseEncode (.str [.low 0])).isOk = false := by
  constructor
  · exact (C6_base_encode (.str [.up 0])).mpr ⟨0, rfl, rfl⟩
  · rfl

/-- C7 counterexample: the claim says `PlugLead` construction fails unless
the two letters are distinct, but `PlugLead("AA")` is accepted — the code
never checks distinctness — and produces the identity map (zero
non-identity entries, not two). -/
theorem C7_counterexample :
    plugLeadInit (.str [.up 0, .up 0]) = .ok (plugLeadDict (.up 0) (.up 0)) ∧
    ∀ i : Fin 26, plugLeadDict (.up 0) (.up 0) (.up i) = some (.up i) := by
  constructor
  · rfl
  · decide

/-- C7 amended: `PlugLead(pair)` fails unless its argument is a string of
exactly two alphabetic characters (distinctness is not checked); when the
two characters are distinct letters of the fixed alphabet, the resulting
map sends each to the other and every other letter of the alphabet to
itself. -/
theorem C7_pluglead_amended (v : PyVal) :
    ((plugLeadInit v).isOk = true ↔
      ∃ a b, v = .str [a, b] ∧ pyIsAlpha a = true ∧ pyIsAlpha b = true) ∧
    (∀ i j : Fin 26, i ≠ j →
      ∃ d, plugLeadInit (.str [.up i, .up j]) = .ok d ∧
        d (.up i) = some (.up j) ∧ d (.up j) = some (.up i) ∧
        ∀ k : Fin 26, k ≠ i → k ≠ j → d (.up k) = some (.up k)) := by
  constructor
  · constructor
    · intro h
      match v with
      | .nonStr => exact absurd h (by simp [plugLeadInit, Except.isOk, Except.toBool])
      | .str [] => exact absurd h (by simp [plugLeadInit, Except.isOk, Except.toBool])
      | .str [c] => exact absurd h (by simp [plugLeadInit, Except.isOk, Except.toBool])
      | .str [a, b] =>
        refine ⟨a, b, rfl, ?_⟩
        by_cases ha : pyIsAlpha a = true
        · by_cases hb : pyIsAlpha b = true
          · exact ⟨ha, hb⟩
          · exact absurd h (by simp [plugLeadInit, ha, hb, Except.isOk, Except.toBool])
        · exact absurd h (by simp [plugLeadInit, ha, Except.isOk, Except.toBool])
      | .str (c1 :: c2 :: c3 :: rest) =>
        exact absurd h (by simp [plugLeadInit, Except.isOk, Except.toBool])
    · rintro ⟨a, b, hv, ha, hb⟩
      subst hv
      simp [plugLeadInit, ha, hb, Except.isOk, Except.toBool]
  · intro i j hij
    refine ⟨plugLeadDict (.up i) (.up j), rfl, ?_, ?_, ?_⟩
    · simp [plugLeadDict, hij]
    · simp [plugLeadDict]
    · intro k hki hkj
      simp [plugLeadDict, plugLeadBase, hki, hkj]

/-- C7 witness for the amended claim: `PlugLead("AB")` maps A↦B, B↦A and
fixes every other letter. -/
theorem C7_pluglead_amended_witness :
    ∃ d, plugLeadInit (.str [.up 0, .up 1]) = .ok d ∧
      d (.up 0) = some (.up 1) ∧ d (.up 1) = some (.up 0) ∧
      ∀ k : Fin 26, k ≠ 0 → k ≠ 1 → d (.up k) = some (.up k) :=
  (C7_pluglead_amended (.str [.up 0, .up 1])).2 0 1 (by decide)

/-- C8 counterexample: the claim says construction fails for a ring
setting outside `[1,26]`, but ring token `"27"` is accepted —
`setRingOffset` has no range check — and the leftmost rotor's stored ring
offset is 26, outside `[0,26)`. -/
theorem C8_counterexample :
    (buildTok [RName.rI, RName.rII, RName.rIII] RName.refA
        [Tok.letter 0, Tok.letter 0, Tok.letter 0]
        [Tok.num 27, Tok.num 1, Tok.num 1] [] []).map
      (fun m => (m.rotors.getD 2 d0).ring) = .ok 26 := by
  rfl

/-- C8 amended: with matching setting lengths and a valid reflector name,
construction succeeds iff every start-position token converts to a value
in `[0,26)` and every ring token converts at all — out-of-range start
positions fail as claimed, but ring values are accepted without any range
check and stored as `value - 1` unreduced, so ring offsets can lie outside
`[0,26)`; rotor positions always lie in `[0,26)` after success. -/
theorem C8_settings_amended (names : List RName) (rn : RName)
    (pT rT : List Tok) (pb sw : List (Fin 26 × Fin 26))
    (h1 : pT.length = names.length) (h2 : rT.length = names.length)
    (hrefl : isReflName rn = true) :
    ((∃ m, buildTok names rn pT rT pb sw = .ok m) ↔
      (∀ t ∈ pT, posTokOk t = true) ∧ (∀ t ∈ rT, (convTok t).isOk = true)) ∧
    (∀ m, buildTok names rn pT rT pb sw = .ok m →
      m.rotors.map (fun r => r.ring) = (rT.map convVal).reverse ∧
      ∀ r ∈ m.rotors, r.pos.1 < 26) := by
  have hforward : ∀ m, buildTok names rn pT rT pb sw = .ok m →
      (∀ t ∈ pT, posTokOk t = true) ∧ (∀ t ∈ rT, (convTok t).isOk = true) := by
    intro m hm
    constructor
    · intro t ht
      by_cases hbad : posTokOk t = true
      · exact hbad
      · obtain ⟨e, he⟩ := buildTok_err_pos names rn pT rT pb sw h1 h2 t ht
          (by simpa using hbad)
        rw [hm] at he
        exact absurd he (by simp)
    · intro t ht
      by_cases hbad : (convTok t).isOk = true
      · exact hbad
      · obtain ⟨e, he⟩ := buildTok_err_ring names rn pT rT pb sw h1 h2 t ht
          (by simpa using hbad)
        rw [hm] at he
        exact absurd he (by simp)
  constructor
  · constructor
    · rintro ⟨m, hm⟩
      exact hforward m hm
    · rintro ⟨hpos, hring⟩
      obtain ⟨m, hm, _⟩ := buildTok_ok names rn pT rT pb sw h1 h2 hrefl hpos hring
      exact ⟨m, hm⟩
  · intro m hm
    obtain ⟨hpos, hring⟩ := hforward m hm
    obtain ⟨m0, hm0, _, _, _, hr0⟩ :=
      buildTok_ok names rn pT rT pb sw h1 h2 hrefl hpos hring
    rw [hm] at hm0
    simp only [Except.ok.injEq] at hm0
    subst hm0
    exact ⟨hr0, fun r _ => r.pos.isLt⟩

/-- C8 witness for the amended claim: a build whose ring token `"27"` is
accepted, with the stored ring offsets exactly the converted values. -/
theorem C8_settings_amended_witness :
    ∃ m, buildTok [RName.rI, RName.rII, RName.rIII] RName.refA
        [Tok.letter 0, Tok.letter 1, Tok.letter 2]
        [Tok.num 27, Tok.num 1, Tok.num 1] [] [] = .ok m ∧
      m.rotors.map (fun r => r.ring) =
        ([Tok.num 27, Tok.num 1, Tok.num 1].map convVal).reverse := by
  have h := C8_settings_amended [RName.rI, RName.rII, RName.rIII] RName.refA
    [Tok.letter 0, Tok.letter 1, Tok.letter 2]
    [Tok.num 27, Tok.num 1, Tok.num 1] [] [] (by decide) (by decide)
    (by decide)
  obtain ⟨m, hm⟩ := h.1.mpr ⟨by decide, by decide⟩
  exact ⟨m, hm, (h.2 m hm).1⟩

/-- C9: the automatic stepping on key presses never changes any rotor at
slot index 3 or higher: after any successfully encoded input, those
rotors are exactly as configured. -/
theorem C9_aux_rotors_fixed (m : Machine) (inp : List (Fin 26))
    (m' : Machine) (out : List (Fin 26))
    (h : encodeM m inp = .ok (m', out)) :
    ∀ i, 3 ≤ i → m'.rotors.getD i d0 = m.rotors.getD i d0 :=
  encodeM_high inp m m' out h

/-- C9 witness: a 4-rotor machine whose leftmost (auxiliary) rotor keeps
its configured position across a key press. -/
theorem C9_aux_rotors_fixed_witness :
    ∃ m' out, encodeM
        ⟨[⟨RName.rI, 16, 0⟩, ⟨RName.rII, 4, 0⟩, ⟨RName.rIII, 21, 0⟩,
            ⟨RName.beta, 5, 2⟩], rightOf RName.refB, id⟩ [0, 1] =
        .ok (m', out) ∧
      m'.rotors.getD 3 d0 = ⟨RName.beta, 5, 2⟩ := by
  obtain ⟨m', out, h⟩ : ∃ m' out, encodeM
      ⟨[⟨RName.rI, 16, 0⟩, ⟨RName.rII, 4, 0⟩, ⟨RName.rIII, 21, 0⟩,
          ⟨RName.beta, 5, 2⟩], rightOf RName.refB, id⟩ [0, 1] =
      .ok (m', out) := ⟨_, _, rfl⟩
  refine ⟨m', out, h, ?_⟩
  rw [C9_aux_rotors_fixed _ [0, 1] m' out h 3 (by decide)]
  rfl

/-- C10: a machine whose rotor stack has fewer than three rotors is
constructible (settings of matching length), and then every `pressKey`
and every `encode` on non-empty input fails before any encoding because
the stepping routine reads rotor slots 1 and 2 unconditionally; with at
least three rotors that error branch is unreachable and `pressKey`
succeeds. -/
theorem C10_short_stack (names : List RName) (rn : RName) (pT rT : List Tok)
    (pb sw : List (Fin 26 × Fin 26))
    (h1 : pT.length = names.length) (h2 : rT.length = names.length)
    (hrefl : isReflName rn = true)
    (hpos : ∀ t ∈ pT, posTokOk t = true)
    (hring : ∀ t ∈ rT, (convTok t).isOk = true) :
    ∃ m, buildTok names rn pT rT pb sw = .ok m ∧
      (names.length < 3 → ∀ k ks,
        (∃ e, pressKey m k = .error e) ∧
        (∃ e, encodeM m (k :: ks) = .error e)) ∧
      (3 ≤ names.length → ∀ k, ∃ m' c, pressKey m k = .ok (m', c)) := by
  obtain ⟨m, hm, hlen, _⟩ :=
    buildTok_ok names rn pT rT pb sw h1 h2 hrefl hpos hring
  refine ⟨m, hm, ?_, ?_⟩
  · intro hlt k ks
    obtain ⟨e, he⟩ := stepRotors_err m.rotors (by omega)
    have hpk := pressKey_err m k e he
    exact ⟨⟨e, hpk⟩, ⟨e, encodeM_cons_err m k ks e hpk⟩⟩
  · intro hge k
    obtain ⟨rs, hs, _⟩ := stepRotors_ok m.rotors (by omega)
    refine ⟨⟨rs, m.reflMap, m.plug⟩, pipelineAt ⟨rs, m.reflMap, m.plug⟩ k, ?_⟩
    rw [pressKey_ok_iff]
    exact ⟨rs, hs, rfl, rfl⟩

/-- C10 witness: a two-rotor machine builds, and pressing a key fails. -/
theorem C10_short_stack_witness :
    ∃ m, buildTok [RName.rI, RName.rII] RName.refA
        [Tok.letter 0, Tok.letter 0] [Tok.num 1, Tok.num 1] [] [] = .ok m ∧
      ∃ e, pressKey m 0 = .error e := by
  obtain ⟨m, hm, hlt, _⟩ := C10_short_stack [RName.rI, RName.rII] RName.refA
    [Tok.letter 0, Tok.letter 0] [Tok.num 1, Tok.num 1] [] []
    (by decide) (by decide) (by decide) (by decide) (by decide)
  exact ⟨m, hm, (hlt (by decide) 0 []).1⟩

end Enigma
